import Mathlib

/-!
Verification of the `ethdistance` repository (src/ethdistance.py).

The file shallowly embeds the core of the program:

* the class `transaction_tree` with its fields `root_wallet`, `parent_info`,
  `observed_wallets` and `leaves`, and its methods `expand` (Admit) and
  `path_to_root` (PathToRoot);
* the helper `neighbor_address` (NeighborOf);
* the breadth-first driver `shortest_path` (ShortestPath).

Modelling conventions:

* Python sets are lists of strings; `set.add` becomes `List.insert` (a no-op
  when the element is present, as for a set), `set.discard` becomes a filter.
* The Python dict `parent_info` is an association list; insertion prepends and
  lookup takes the first entry, which agrees with dict semantics because keys
  are never overwritten (the `expand` precondition forbids it).
* A failing `assert` is modelled as an error result: `expandRun` returns the
  optional error message together with the object state at that point (the
  asserts run before every mutation, so on failure the state is the input
  state); `expand` is the `Option` view of the same method.
* `path_to_root` is recursive in the source with no structural bound, so it is
  embedded with explicit fuel `|observed_wallets|`; `none` covers both the
  failed assert and a walk that does not reach the root within the fuel
  (impossible on states actually built by `expand`, as proved below).
* The Etherscan client is the external collaborator: it is a parameter
  `ds : String → List Tx` giving, per wallet, the transaction batch that
  `client.get_all_transactions(wallet, 1)` yields.  `time.sleep` has no
  observable effect in the model.  The unbounded `while` loop of
  `shortest_path` takes explicit fuel (one unit per dequeued wallet);
  `none` means the fuel was exhausted before the loop finished.
* Python's `str.lower()` is `str_lower`, character-wise `Char.toLower`
  (the computation of `String.toLower`, written over the underlying
  character list so that it evaluates by kernel reduction); the addresses
  involved are ASCII hexadecimal strings, on which the two agree.
-/

/-- Python's `str.lower()`: lower-case every character. -/
def str_lower (s : String) : String := ⟨s.data.map Char.toLower⟩

/-- An Etherscan transaction record, with the three fields the program
reads: `from_address`, `to_address` and `txhash`. -/
structure Tx where
  from_address : String
  to_address : String
  txhash : String
deriving DecidableEq, Repr

/-- The `transaction_tree` class: root wallet, the `parent_info` dict
(child wallet ↦ (parent wallet, transaction hash), as an association list),
the set of observed wallets, and the set of leaves. -/
structure transaction_tree where
  root_wallet : String
  parent_info : List (String × String × String)
  observed_wallets : List String
  leaves : List String
deriving DecidableEq, Repr

/-- `transaction_tree.__init__`: `parent_info = dict()`,
`observed_wallets = {root_wallet}`, `leaves = {root_wallet}`. -/
def transaction_tree_init (root_wallet : String) : transaction_tree :=
  { root_wallet := root_wallet
    parent_info := []
    observed_wallets := [root_wallet]
    leaves := [root_wallet] }

/-- Dict lookup `parent_info[wallet]`: the first association-list entry whose
key is `wallet`, if any (`none` is Python's `KeyError`). -/
def lookupParent (info : List (String × String × String)) (wallet : String) :
    Option (String × String) :=
  match info.find? (fun e => e.1 == wallet) with
  | some e => some e.2
  | none => none

/-- `transaction_tree.expand`, statement by statement, returning the optional
assertion-failure message together with the object state after the call.
The two asserts run before any mutation, so a failure returns the input
state unchanged; on success the three updates run:
`parent_info[child] = (parent, tx_hash)`, `observed_wallets.add(child)`,
`leaves.discard(parent)` then `leaves.add(child)`. -/
def expandRun (tree : transaction_tree)
    (parent_wallet child_wallet tx_hash : String) :
    Option String × transaction_tree :=
  if parent_wallet ∈ tree.observed_wallets then
    if child_wallet ∈ tree.observed_wallets then
      (some "assert child_wallet not in self.observed_wallets", tree)
    else
      (none,
        { root_wallet := tree.root_wallet
          parent_info := (child_wallet, parent_wallet, tx_hash) :: tree.parent_info
          observed_wallets := child_wallet :: tree.observed_wallets
          leaves :=
            List.insert child_wallet
              (tree.leaves.filter (fun w => w != parent_wallet)) })
  else
    (some "assert parent_wallet in self.observed_wallets", tree)

/-- `transaction_tree.expand` as a partial function: `some` of the new state
on success, `none` when one of the asserts fails. -/
def expand (tree : transaction_tree)
    (parent_wallet child_wallet tx_hash : String) : Option transaction_tree :=
  match expandRun tree parent_wallet child_wallet tx_hash with
  | (none, t) => some t
  | (some _, _) => none

/-- `transaction_tree.path_to_root` with explicit fuel.  Each level mirrors
the source: `assert wallet in observed_wallets` (`none` on failure), the base
case `wallet == root_wallet`, the dict lookups `parent_info[wallet][0]` and
`[1]`, the recursive call, and the final `[wallet] + rest, [tx] + rest`. -/
def path_to_root_fuel (tree : transaction_tree) :
    Nat → String → Option (List String × List String)
  | 0, _ => none
  | fuel + 1, wallet =>
    if wallet ∈ tree.observed_wallets then
      if wallet = tree.root_wallet then
        some ([tree.root_wallet], [])
      else
        match lookupParent tree.parent_info wallet with
        | none => none
        | some (parent, tx) =>
          match path_to_root_fuel tree fuel parent with
          | none => none
          | some (ws, txs) => some (wallet :: ws, tx :: txs)
    else none

/-- `transaction_tree.path_to_root`: the recursion needs one fuel unit per
wallet on the path, and on every state built by `expand` the path visits
pairwise-distinct observed wallets, so `|observed_wallets|` fuel always
suffices (proved below). -/
def path_to_root (tree : transaction_tree) (wallet : String) :
    Option (List String × List String) :=
  path_to_root_fuel tree tree.observed_wallets.length wallet

/-- `neighbor_address`: the other side of the transaction relative to
`wallet`, comparing lower-cased addresses. -/
def neighbor_address (etherscan_tx : Tx) (wallet : String) : String :=
  if str_lower etherscan_tx.from_address = str_lower wallet then
    etherscan_tx.to_address
  else etherscan_tx.from_address

/-- Result of one run of `shortest_path`: the returned pair of lists, the
Python `return False`, or a propagated `AssertionError`. -/
inductive SPResult where
  | success : List String → List String → SPResult
  | notFound : SPResult
  | crash : String → SPResult
deriving DecidableEq, Repr

/-- Outcome of the inner `for tx in ...` loop over one wallet's batch:
either the loop ran to completion (updated tree and queue) or the function
returned / raised, with the tree state at that point. -/
inductive BatchStep where
  | more : transaction_tree → List (String × Nat) → BatchStep
  | done : SPResult → transaction_tree → BatchStep
deriving DecidableEq, Repr

/-- The body of `for tx in client.get_all_transactions(wallet, 1)` inside
`shortest_path`, processing the batch in order.  Per transaction:
`new_wallet = neighbor_address(tx, wallet).lower()`; if it is unobserved and
nonempty, `tree.expand(wallet, new_wallet, tx.txhash)` (whose assert can
raise); if `new_wallet == target_wallet`, return `tree.path_to_root(new_wallet)`
(whose assert can raise); else if `depth < max_depth`, append
`(new_wallet, depth + 1)` to the queue. -/
def process_txs (target_wallet : String) (max_depth : Nat)
    (wallet : String) (depth : Nat) :
    transaction_tree → List (String × Nat) → List Tx → BatchStep
  | tree, queue, [] => BatchStep.more tree queue
  | tree, queue, tx :: rest =>
    let new_wallet := str_lower (neighbor_address tx wallet)
    let stepped : Option transaction_tree :=
      if new_wallet ∉ tree.observed_wallets ∧ new_wallet ≠ "" then
        expand tree wallet new_wallet tx.txhash
      else some tree
    match stepped with
    | none => BatchStep.done (SPResult.crash "AssertionError in expand") tree
    | some tree2 =>
      if new_wallet = target_wallet then
        match path_to_root tree2 new_wallet with
        | some (ws, txs) => BatchStep.done (SPResult.success ws txs) tree2
        | none => BatchStep.done (SPResult.crash "AssertionError in path_to_root") tree2
      else if depth < max_depth then
        process_txs target_wallet max_depth wallet depth tree2
          (queue ++ [(new_wallet, depth + 1)]) rest
      else
        process_txs target_wallet max_depth wallet depth tree2 queue rest

/-- The `while len(queue) >= 1` loop of `shortest_path`, with one fuel unit
per dequeued wallet.  The final tree state is returned alongside the result
so that properties of the wallets admitted during the run can be stated. -/
def sp_loop (ds : String → List Tx) (target_wallet : String) (max_depth : Nat) :
    Nat → transaction_tree → List (String × Nat) → Option (SPResult × transaction_tree)
  | 0, _, _ => none
  | fuel + 1, tree, queue =>
    match queue with
    | [] => some (SPResult.notFound, tree)
    | (wallet, depth) :: queue_rest =>
      match process_txs target_wallet max_depth wallet depth tree queue_rest (ds wallet) with
      | BatchStep.done r t => some (r, t)
      | BatchStep.more tree2 queue2 => sp_loop ds target_wallet max_depth fuel tree2 queue2

/-- `shortest_path`: lower-case the two addresses, build the tree rooted at
the source, seed the queue with `(source, 0)` and run the search loop. -/
def shortest_path (ds : String → List Tx)
    (source_wallet target_wallet : String) (max_depth fuel : Nat) :
    Option (SPResult × transaction_tree) :=
  sp_loop ds (str_lower target_wallet) max_depth fuel
    (transaction_tree_init (str_lower source_wallet)) [(str_lower source_wallet, 0)]

/-- The tree states reachable from `__init__` by successful `expand` calls. -/
inductive Reachable : transaction_tree → Prop where
  | init (root_wallet : String) : Reachable (transaction_tree_init root_wallet)
  | step (s t : transaction_tree) (p c h : String) :
      Reachable s → expand s p c h = some t → Reachable t

/-! ### Basic facts about `expand` and `lookupParent` -/

theorem expand_eq_none_iff {t : transaction_tree} {p c hsh : String} :
    expand t p c hsh = none ↔
      (p ∉ t.observed_wallets ∨ c ∈ t.observed_wallets) := by
  unfold expand expandRun
  by_cases hp : p ∈ t.observed_wallets <;>
    by_cases hc : c ∈ t.observed_wallets <;> simp [hp, hc]

theorem expand_success {t : transaction_tree} {p c hsh : String}
    (hp : p ∈ t.observed_wallets) (hc : c ∉ t.observed_wallets) :
    expand t p c hsh = some
      { root_wallet := t.root_wallet
        parent_info := (c, p, hsh) :: t.parent_info
        observed_wallets := c :: t.observed_wallets
        leaves := List.insert c (t.leaves.filter (fun w => w != p)) } := by
  unfold expand expandRun
  simp [hp, hc]

theorem expand_some_elim {t t2 : transaction_tree} {p c hsh : String}
    (hx : expand t p c hsh = some t2) :
    p ∈ t.observed_wallets ∧ c ∉ t.observed_wallets ∧
    t2.root_wallet = t.root_wallet ∧
    t2.parent_info = (c, p, hsh) :: t.parent_info ∧
    t2.observed_wallets = c :: t.observed_wallets ∧
    t2.leaves = List.insert c (t.leaves.filter (fun w => w != p)) := by
  by_cases hp : p ∈ t.observed_wallets
  · by_cases hc : c ∈ t.observed_wallets
    · rw [expand_eq_none_iff.2 (Or.inr hc)] at hx; cases hx
    · rw [expand_success hp hc] at hx
      cases hx
      exact ⟨hp, hc, rfl, rfl, rfl, rfl⟩
  · rw [expand_eq_none_iff.2 (Or.inl hp)] at hx; cases hx

theorem lookupParent_cons_self (info : List (String × String × String))
    (c p hsh : String) :
    lookupParent ((c, p, hsh) :: info) c = some (p, hsh) := by
  simp [lookupParent, List.find?]

theorem lookupParent_cons_ne {w c : String} (hne : w ≠ c)
    (info : List (String × String × String)) (p hsh : String) :
    lookupParent ((c, p, hsh) :: info) w = lookupParent info w := by
  have : (c == w) = false := beq_eq_false_iff_ne.2 (Ne.symm hne)
  simp [lookupParent, List.find?, this]

theorem lookupParent_mem {info : List (String × String × String)}
    {w : String} {pr : String × String}
    (hl : lookupParent info w = some pr) : (w, pr) ∈ info := by
  unfold lookupParent at hl
  cases hf : info.find? (fun e => e.1 == w) with
  | none => rw [hf] at hl; cases hl
  | some e =>
    rw [hf] at hl
    cases hl
    have hmem : e ∈ info := List.mem_of_find?_eq_some hf
    have hkey := List.find?_some hf
    have hkey' : e.1 = w := by simpa using hkey
    have : (w, e.2) = e := by
      cases e with
      | mk k v => simp at hkey' ⊢; exact hkey'.symm
    rwa [this]

theorem lookupParent_eq_none {info : List (String × String × String)}
    {w : String} (hk : ∀ e ∈ info, e.1 ≠ w) :
    lookupParent info w = none := by
  unfold lookupParent
  have : info.find? (fun e => e.1 == w) = none := by
    rw [List.find?_eq_none]
    intro e he
    simpa using hk e he
  rw [this]

/-! ### The structural invariant of reachable trees -/

/-- Structural invariant maintained by `__init__` and `expand`: the root is
observed, every `parent_info` key and parent is observed, the root has no
parent entry, every non-root observed wallet has a parent entry, the
observed set has no duplicates, and `leaves` is exactly the set of observed
wallets that are the parent of no entry. -/
structure TreeInv (t : transaction_tree) : Prop where
  root_obs : t.root_wallet ∈ t.observed_wallets
  keys_obs : ∀ e ∈ t.parent_info, e.1 ∈ t.observed_wallets
  parents_obs : ∀ e ∈ t.parent_info, e.2.1 ∈ t.observed_wallets
  root_no_key : ∀ e ∈ t.parent_info, e.1 ≠ t.root_wallet
  nonroot_key : ∀ w ∈ t.observed_wallets, w ≠ t.root_wallet →
    (lookupParent t.parent_info w).isSome
  obs_nodup : t.observed_wallets.Nodup
  leaves_iff : ∀ w, w ∈ t.leaves ↔
    (w ∈ t.observed_wallets ∧ ∀ e ∈ t.parent_info, e.2.1 ≠ w)

theorem TreeInv_init (root_wallet : String) : TreeInv (transaction_tree_init root_wallet) := by
  constructor <;> simp [transaction_tree_init]

theorem TreeInv_step {t t2 : transaction_tree} {p c hsh : String}
    (hI : TreeInv t) (hx : expand t p c hsh = some t2) : TreeInv t2 := by
  obtain ⟨hp, hc, hroot, hinfo, hobs, hlvs⟩ := expand_some_elim hx
  have hcne_root : c ≠ t.root_wallet := fun hq => hc (hq ▸ hI.root_obs)
  have hpne_c : p ≠ c := fun hq => hc (hq ▸ hp)
  constructor
  · rw [hroot, hobs]; exact List.mem_cons_of_mem _ hI.root_obs
  · intro e he
    rw [hinfo] at he; rw [hobs]
    rcases List.mem_cons.1 he with rfl | he
    · exact List.mem_cons_self _ _
    · exact List.mem_cons_of_mem _ (hI.keys_obs e he)
  · intro e he
    rw [hinfo] at he; rw [hobs]
    rcases List.mem_cons.1 he with rfl | he
    · exact List.mem_cons_of_mem _ hp
    · exact List.mem_cons_of_mem _ (hI.parents_obs e he)
  · intro e he
    rw [hinfo] at he; rw [hroot]
    rcases List.mem_cons.1 he with rfl | he
    · exact hcne_root
    · exact hI.root_no_key e he
  · intro w hw hwroot
    rw [hobs] at hw
    rw [hinfo]
    rcases List.mem_cons.1 hw with rfl | hw
    · rw [lookupParent_cons_self]; rfl
    · have hwc : w ≠ c := fun hq => hc (hq ▸ hw)
      rw [lookupParent_cons_ne hwc]
      exact hI.nonroot_key w hw (by rwa [hroot] at hwroot)
  · rw [hobs]; exact List.nodup_cons.2 ⟨hc, hI.obs_nodup⟩
  · intro w
    rw [hlvs, hinfo, hobs]
    constructor
    · intro hin
      rcases List.mem_insert_iff.1 hin with rfl | hin2
      · refine ⟨List.mem_cons_self _ _, ?_⟩
        intro e he
        rcases List.mem_cons.1 he with rfl | he
        · exact hpne_c
        · exact fun hq => hc (hq ▸ hI.parents_obs e he)
      · obtain ⟨hlf, hwp⟩ := List.mem_filter.1 hin2
        have hwp' : w ≠ p := by simpa using hwp
        obtain ⟨hwobs, hpar⟩ := (hI.leaves_iff w).1 hlf
        refine ⟨List.mem_cons_of_mem _ hwobs, ?_⟩
        intro e he
        rcases List.mem_cons.1 he with rfl | he
        · exact Ne.symm hwp'
        · exact hpar e he
    · rintro ⟨hwobs, hpar⟩
      rcases List.mem_cons.1 hwobs with rfl | hwobs
      · exact List.mem_insert_iff.2 (Or.inl rfl)
      · have hpw : p ≠ w := hpar (c, p, hsh) (List.mem_cons_self _ _)
        have hpar2 : ∀ e ∈ t.parent_info, e.2.1 ≠ w := fun e he =>
          hpar e (List.mem_cons_of_mem _ he)
        have hlf : w ∈ t.leaves := (hI.leaves_iff w).2 ⟨hwobs, hpar2⟩
        exact List.mem_insert_iff.2
          (Or.inr (List.mem_filter.2 ⟨hlf, by simpa using Ne.symm hpw⟩))

theorem reachable_inv {t : transaction_tree} (hr : Reachable t) : TreeInv t := by
  induction hr with
  | init root_wallet => exact TreeInv_init root_wallet
  | step s t p c hsh _ hx ih => exact TreeInv_step ih hx

/-! ### Fuel lemmas for `path_to_root` -/

theorem path_fuel_succ (t : transaction_tree) (n : Nat) (w : String) :
    path_to_root_fuel t (n + 1) w =
      if w ∈ t.observed_wallets then
        if w = t.root_wallet then some ([t.root_wallet], [])
        else
          match lookupParent t.parent_info w with
          | none => none
          | some (parent, tx) =>
            match path_to_root_fuel t n parent with
            | none => none
            | some (ws, txs) => some (w :: ws, tx :: txs)
      else none := rfl

theorem path_fuel_succ_notobs {t : transaction_tree} {n : Nat} {w : String}
    (hobs : w ∉ t.observed_wallets) : path_to_root_fuel t (n + 1) w = none := by
  rw [path_fuel_succ, if_neg hobs]

theorem path_fuel_succ_root {t : transaction_tree} {n : Nat} {w : String}
    (hobs : w ∈ t.observed_wallets) (hroot : w = t.root_wallet) :
    path_to_root_fuel t (n + 1) w = some ([t.root_wallet], []) := by
  rw [path_fuel_succ, if_pos hobs, if_pos hroot]

theorem path_fuel_succ_lknone {t : transaction_tree} {n : Nat} {w : String}
    (hobs : w ∈ t.observed_wallets) (hroot : ¬w = t.root_wallet)
    (hlk : lookupParent t.parent_info w = none) :
    path_to_root_fuel t (n + 1) w = none := by
  rw [path_fuel_succ, if_pos hobs, if_neg hroot, hlk]

theorem path_fuel_succ_link {t : transaction_tree} {n : Nat} {w parent tx : String}
    (hobs : w ∈ t.observed_wallets) (hroot : ¬w = t.root_wallet)
    (hlk : lookupParent t.parent_info w = some (parent, tx)) :
    path_to_root_fuel t (n + 1) w =
      match path_to_root_fuel t n parent with
      | none => none
      | some (ws, txs) => some (w :: ws, tx :: txs) := by
  rw [path_fuel_succ, if_pos hobs, if_neg hroot, hlk]

theorem path_fuel_succ_link_some {t : transaction_tree} {n : Nat}
    {w parent tx : String} {ws txs : List String}
    (hobs : w ∈ t.observed_wallets) (hroot : ¬w = t.root_wallet)
    (hlk : lookupParent t.parent_info w = some (parent, tx))
    (hrec : path_to_root_fuel t n parent = some (ws, txs)) :
    path_to_root_fuel t (n + 1) w = some (w :: ws, tx :: txs) := by
  rw [path_fuel_succ_link hobs hroot hlk, hrec]

theorem path_fuel_mono {t : transaction_tree} :
    ∀ {n : Nat} {w : String} {r : List String × List String},
      path_to_root_fuel t n w = some r → path_to_root_fuel t (n + 1) w = some r := by
  intro n
  induction n with
  | zero => intro w r hr; exact Option.noConfusion hr
  | succ n ih =>
    intro w r hr
    by_cases hobs : w ∈ t.observed_wallets
    · by_cases hroot : w = t.root_wallet
      · rw [path_fuel_succ_root hobs hroot] at hr
        rw [path_fuel_succ_root hobs hroot]
        exact hr
      · cases hlk : lookupParent t.parent_info w with
        | none =>
          rw [path_fuel_succ_lknone hobs hroot hlk] at hr
          exact Option.noConfusion hr
        | some pr =>
          obtain ⟨parent, tx⟩ := pr
          rw [path_fuel_succ_link hobs hroot hlk] at hr
          cases hrec : path_to_root_fuel t n parent with
          | none => rw [hrec] at hr; exact Option.noConfusion hr
          | some r2 =>
            obtain ⟨ws, txs⟩ := r2
            rw [hrec] at hr
            rw [path_fuel_succ_link_some hobs hroot hlk (ih hrec)]
            exact hr
    · rw [path_fuel_succ_notobs hobs] at hr; exact Option.noConfusion hr

theorem path_fuel_add {t : transaction_tree} {n : Nat} {w : String}
    {r : List String × List String} (hr : path_to_root_fuel t n w = some r) :
    ∀ k, path_to_root_fuel t (n + k) w = some r
  | 0 => hr
  | k + 1 => path_fuel_mono (path_fuel_add hr k)

theorem path_fuel_le {t : transaction_tree} {n m : Nat} (hnm : n ≤ m) {w : String}
    {r : List String × List String} (hr : path_to_root_fuel t n w = some r) :
    path_to_root_fuel t m w = some r := by
  obtain ⟨k, rfl⟩ := Nat.exists_eq_add_of_le hnm
  exact path_fuel_add hr k

/-- An `expand` step does not disturb the `path_to_root` walk of any wallet
that was already observed, at any fuel. -/
theorem path_fuel_expand {s t2 : transaction_tree} {p c hsh : String}
    (hI : TreeInv s) (hx : expand s p c hsh = some t2) :
    ∀ {n : Nat} {w : String} {r : List String × List String},
      w ∈ s.observed_wallets → path_to_root_fuel s n w = some r →
      path_to_root_fuel t2 n w = some r := by
  obtain ⟨hp, hc, hroot, hinfo, hobs, _⟩ := expand_some_elim hx
  intro n
  induction n with
  | zero => intro w r _ hr; exact Option.noConfusion hr
  | succ n ih =>
    intro w r hw hr
    have hw2 : w ∈ t2.observed_wallets := by
      rw [hobs]; exact List.mem_cons_of_mem _ hw
    have hwc : w ≠ c := fun hq => hc (hq ▸ hw)
    by_cases hwroot : w = s.root_wallet
    · rw [path_fuel_succ_root hw hwroot] at hr
      have hwr2 : w = t2.root_wallet := by rw [hroot]; exact hwroot
      rw [path_fuel_succ_root hw2 hwr2, hroot]
      exact hr
    · have hwr2 : ¬w = t2.root_wallet := by rw [hroot]; exact hwroot
      have hlk2 : lookupParent t2.parent_info w = lookupParent s.parent_info w := by
        rw [hinfo]; exact lookupParent_cons_ne hwc _ _ _
      cases hlk : lookupParent s.parent_info w with
      | none =>
        rw [path_fuel_succ_lknone hw hwroot hlk] at hr
        exact Option.noConfusion hr
      | some pr =>
        obtain ⟨parent, tx⟩ := pr
        rw [path_fuel_succ_link hw hwroot hlk] at hr
        have hparent : parent ∈ s.observed_wallets :=
          hI.parents_obs (w, parent, tx) (lookupParent_mem hlk)
        cases hrec : path_to_root_fuel s n parent with
        | none => rw [hrec] at hr; exact Option.noConfusion hr
        | some r2 =>
          obtain ⟨ws, txs⟩ := r2
          rw [hrec] at hr
          rw [path_fuel_succ_link_some hw2 hwr2 (hlk2.trans hlk) (ih hparent hrec)]
          exact hr

/-- An `expand` step preserves `path_to_root` of previously observed wallets. -/
theorem path_to_root_expand_old {s t2 : transaction_tree} {p c hsh w : String}
    {r : List String × List String}
    (hI : TreeInv s) (hx : expand s p c hsh = some t2)
    (hw : w ∈ s.observed_wallets) (hr : path_to_root s w = some r) :
    path_to_root t2 w = some r := by
  obtain ⟨_, _, _, _, hobs, _⟩ := expand_some_elim hx
  unfold path_to_root at hr ⊢
  rw [hobs]
  simp only [List.length_cons]
  exact path_fuel_mono (path_fuel_expand hI hx hw hr)

/-- The walk of a freshly admitted child is the child consed onto its
parent's walk. -/
theorem path_to_root_expand_new {s t2 : transaction_tree} {p c hsh : String}
    {ws txs : List String} (hI : TreeInv s) (hx : expand s p c hsh = some t2)
    (hpp : path_to_root s p = some (ws, txs)) :
    path_to_root t2 c = some (c :: ws, hsh :: txs) := by
  obtain ⟨hp, hc, hroot, hinfo, hobs, _⟩ := expand_some_elim hx
  unfold path_to_root
  rw [hobs]
  simp only [List.length_cons]
  have hc2 : c ∈ t2.observed_wallets := by rw [hobs]; exact List.mem_cons_self _ _
  have hcroot : ¬c = t2.root_wallet := by
    rw [hroot]; exact fun hq => hc (hq ▸ hI.root_obs)
  have hlk2 : lookupParent t2.parent_info c = some (p, hsh) := by
    rw [hinfo]; exact lookupParent_cons_self _ _ _ _
  unfold path_to_root at hpp
  exact path_fuel_succ_link_some hc2 hcroot hlk2 (path_fuel_expand hI hx hp hpp)

/-! ### Valid parent-walks -/

/-- A wallet list and hash list form a valid walk to the root: the last
wallet is the root and each wallet is linked to the next by its
`parent_info` entry. -/
inductive ValidPath (t : transaction_tree) : List String → List String → Prop where
  | root : ValidPath t [t.root_wallet] []
  | link (w p tx : String) (ws txs : List String) :
      lookupParent t.parent_info w = some (p, tx) → ws.head? = some p →
      ValidPath t ws txs → ValidPath t (w :: ws) (tx :: txs)

theorem ValidPath.length_eq {t : transaction_tree} {ws txs : List String}
    (h : ValidPath t ws txs) : ws.length = txs.length + 1 := by
  induction h with
  | root => rfl
  | link w p tx ws txs _ _ _ ih => simp [List.length_cons, ih]

theorem ValidPath.ne_nil {t : transaction_tree} {ws txs : List String}
    (h : ValidPath t ws txs) : ws ≠ [] := by
  cases h <;> simp

theorem ValidPath.getLast_root {t : transaction_tree} {ws txs : List String}
    (h : ValidPath t ws txs) : ws.getLast? = some t.root_wallet := by
  induction h with
  | root => rfl
  | link w p tx ws txs hlk hhd hvp ih =>
    cases ws with
    | nil => exact absurd rfl hvp.ne_nil
    | cons b l => rw [List.getLast?_cons_cons]; exact ih

theorem ValidPath.index {t : transaction_tree} {ws txs : List String}
    (h : ValidPath t ws txs) :
    ∀ i < txs.length, ∃ a b tx, ws[i]? = some a ∧ ws[i + 1]? = some b ∧
      txs[i]? = some tx ∧ lookupParent t.parent_info a = some (b, tx) := by
  induction h with
  | root => intro i hi; simp at hi
  | link w p tx ws txs hlk hhd hvp ih =>
    intro i hi
    cases i with
    | zero =>
      refine ⟨w, p, tx, List.getElem?_cons_zero, ?_, List.getElem?_cons_zero, hlk⟩
      cases ws with
      | nil => exact absurd hhd (by simp)
      | cons b l =>
        have hb : b = p := by simpa using hhd
        subst hb
        simp
    | succ i =>
      have hi2 : i < txs.length := Nat.lt_of_succ_lt_succ (by simpa using hi)
      obtain ⟨a, b, tx2, h1, h2, h3, h4⟩ := ih i hi2
      exact ⟨a, b, tx2, by simpa using h1, by simpa using h2, by simpa using h3, h4⟩

/-- An `expand` step preserves valid walks made of already observed wallets. -/
theorem ValidPath.expand_transport {s t2 : transaction_tree} {p c hsh : String}
    (hx : expand s p c hsh = some t2) {ws txs : List String}
    (h : ValidPath s ws txs) (hsub : ∀ x ∈ ws, x ∈ s.observed_wallets) :
    ValidPath t2 ws txs := by
  obtain ⟨hp, hc, hroot, hinfo, hobs, _⟩ := expand_some_elim hx
  revert hsub
  induction h with
  | root =>
    intro _
    have hvr := @ValidPath.root t2
    rwa [hroot] at hvr
  | link w pw tx ws txs hlk hhd hvp ih =>
    intro hsub
    have hw : w ∈ s.observed_wallets := hsub w (List.mem_cons_self _ _)
    have hwc : w ≠ c := fun hq => hc (hq ▸ hw)
    refine ValidPath.link w pw tx ws txs ?_ hhd
      (ih (fun x hx2 => hsub x (List.mem_cons_of_mem _ hx2)))
    rw [hinfo, lookupParent_cons_ne hwc]
    exact hlk

/-- Master lemma: on every reachable tree, every observed wallet has a
successful `path_to_root`, and the returned walk is a valid, duplicate-free
walk through observed wallets starting at the query wallet. -/
theorem reach_path {t : transaction_tree} (hr : Reachable t) :
    ∀ w ∈ t.observed_wallets, ∃ ws txs,
      path_to_root t w = some (ws, txs) ∧ ValidPath t ws txs ∧
      ws.head? = some w ∧ ws.Nodup ∧ ∀ x ∈ ws, x ∈ t.observed_wallets := by
  induction hr with
  | init root_wallet =>
    intro w hw
    have hw2 : w = root_wallet := by simpa [transaction_tree_init] using hw
    subst hw2
    refine ⟨[w], [], ?_, @ValidPath.root (transaction_tree_init w), rfl,
      List.nodup_singleton _, ?_⟩
    · exact path_fuel_succ_root (by simp [transaction_tree_init]) rfl
    · intro x hx2
      simpa [transaction_tree_init] using hx2
  | step s t2 p c hsh hrs hx ih =>
    have hI := reachable_inv hrs
    obtain ⟨hp, hc, hroot, hinfo, hobs, _⟩ := expand_some_elim hx
    intro w hw
    rw [hobs] at hw
    rcases List.mem_cons.1 hw with rfl | hw2
    · obtain ⟨ws, txs, hpath, hvp, hhd, hnd, hsub⟩ := ih p hp
      refine ⟨w :: ws, hsh :: txs, path_to_root_expand_new hI hx hpath, ?_, rfl, ?_, ?_⟩
      · refine ValidPath.link w p hsh ws txs ?_ hhd (hvp.expand_transport hx hsub)
        rw [hinfo]
        exact lookupParent_cons_self _ _ _ _
      · exact List.nodup_cons.2 ⟨fun hcw => hc (hsub w hcw), hnd⟩
      · intro x hx2
        rw [hobs]
        rcases List.mem_cons.1 hx2 with rfl | hx3
        · exact List.mem_cons_self _ _
        · exact List.mem_cons_of_mem _ (hsub x hx3)
    · obtain ⟨ws, txs, hpath, hvp, hhd, hnd, hsub⟩ := ih w hw2
      refine ⟨ws, txs, path_to_root_expand_old hI hx hw2 hpath,
        hvp.expand_transport hx hsub, hhd, hnd, ?_⟩
      intro x hx2
      rw [hobs]
      exact List.mem_cons_of_mem _ (hsub x hx2)

/-- A wallet is unobserved exactly when `path_to_root` fails (shared helper,
direction not needing reachability). -/
theorem path_to_root_none_of_not_obs {t : transaction_tree} {w : String}
    (hw : w ∉ t.observed_wallets) : path_to_root t w = none := by
  unfold path_to_root
  cases hn : t.observed_wallets.length with
  | zero => rfl
  | succ n => exact path_fuel_succ_notobs hw

/-! ### Concrete states used by the witnesses -/

/-- The tree obtained from `transaction_tree("0xa")` by
`expand("0xa", "0xb", "0x1")`. -/
def tree_ab : transaction_tree :=
  { root_wallet := "0xa"
    parent_info := [("0xb", "0xa", "0x1")]
    observed_wallets := ["0xb", "0xa"]
    leaves := ["0xb"] }

theorem reachable_tree_ab : Reachable tree_ab :=
  Reachable.step (transaction_tree_init "0xa") tree_ab "0xa" "0xb" "0x1"
    (Reachable.init "0xa") (by decide)

/-! ### Claims C4, C5, C6, C7, C10 -/

/-- C4: on every reachable tree, for every observed wallet `w`,
`path_to_root w` succeeds and returns `(wallets, txHashes)` with
`wallets[0] = w`, `wallets[last] = root`,
`len(wallets) = len(txHashes) + 1`, and `txHashes[i]` is the stored hash
linking `wallets[i]` to its parent `wallets[i+1]`; in particular
`path_to_root(root) = ([root], [])`. -/
theorem claim_C4 (t : transaction_tree) (hr : Reachable t) :
    (∀ w ∈ t.observed_wallets, ∃ ws txs,
      path_to_root t w = some (ws, txs) ∧
      ws.head? = some w ∧
      ws.getLast? = some t.root_wallet ∧
      ws.length = txs.length + 1 ∧
      ∀ i < txs.length, ∃ a b tx, ws[i]? = some a ∧ ws[i + 1]? = some b ∧
        txs[i]? = some tx ∧ lookupParent t.parent_info a = some (b, tx)) ∧
    path_to_root t t.root_wallet = some ([t.root_wallet], []) := by
  have hI := reachable_inv hr
  constructor
  · intro w hw
    obtain ⟨ws, txs, hpath, hvp, hhd, hnd, hsub⟩ := reach_path hr w hw
    exact ⟨ws, txs, hpath, hhd, hvp.getLast_root, hvp.length_eq, hvp.index⟩
  · obtain ⟨ws, txs, hpath, hvp, hhd, hnd, hsub⟩ :=
      reach_path hr t.root_wallet hI.root_obs
    cases hvp with
    | root => exact hpath
    | link w p tx ws2 txs2 hlk hhd2 hvp2 =>
      have hwr : w = t.root_wallet := by simpa using hhd
      subst hwr
      exact absurd rfl (hI.root_no_key _ (lookupParent_mem hlk))

/-- C4 witness: the root path of the concrete two-wallet tree. -/
theorem claim_C4_witness : path_to_root tree_ab "0xa" = some (["0xa"], []) :=
  (claim_C4 tree_ab reachable_tree_ab).2

/-- C5: `expand` fails by assertion exactly when the parent is unobserved or
the child is already observed; on success it records
`parent_info[child] = (parent, hash)`, adds the child to the observed set,
removes the parent from the leaves and adds the child to them; and on every
reachable tree `path_to_root` fails exactly when the queried wallet is
unobserved. -/
theorem claim_C5 :
    (∀ (t : transaction_tree) (p c hsh : String),
      (expand t p c hsh = none ↔
        (p ∉ t.observed_wallets ∨ c ∈ t.observed_wallets)) ∧
      ∀ t2, expand t p c hsh = some t2 →
        lookupParent t2.parent_info c = some (p, hsh) ∧
        (∀ w, w ∈ t2.observed_wallets ↔ (w = c ∨ w ∈ t.observed_wallets)) ∧
        (∀ w, w ∈ t2.leaves ↔ (w = c ∨ (w ∈ t.leaves ∧ w ≠ p)))) ∧
    ∀ (t : transaction_tree), Reachable t →
      ∀ w, (path_to_root t w = none ↔ w ∉ t.observed_wallets) := by
  constructor
  · intro t p c hsh
    refine ⟨expand_eq_none_iff, ?_⟩
    intro t2 hx
    obtain ⟨hp, hc, hroot, hinfo, hobs, hlvs⟩ := expand_some_elim hx
    refine ⟨?_, ?_, ?_⟩
    · rw [hinfo]; exact lookupParent_cons_self _ _ _ _
    · intro w; rw [hobs]; exact List.mem_cons
    · intro w
      rw [hlvs]
      rw [List.mem_insert_iff]
      constructor
      · rintro (rfl | hmem)
        · exact Or.inl rfl
        · obtain ⟨hl, hfp⟩ := List.mem_filter.1 hmem
          exact Or.inr ⟨hl, by simpa using hfp⟩
      · rintro (rfl | ⟨hl, hfp⟩)
        · exact Or.inl rfl
        · exact Or.inr (List.mem_filter.2 ⟨hl, by simpa using hfp⟩)
  · intro t hr w
    constructor
    · intro hnone hw
      obtain ⟨ws, txs, hpath, _, _, _, _⟩ := reach_path hr w hw
      rw [hpath] at hnone
      exact Option.noConfusion hnone
    · exact path_to_root_none_of_not_obs

/-- C5 witness: a rejected `expand` (unobserved parent) and a rejected
`path_to_root` (unobserved wallet) on concrete states. -/
theorem claim_C5_witness :
    expand (transaction_tree_init "0xa") "0xz" "0xb" "0x1" = none ∧
    path_to_root tree_ab "0xq" = none := by
  constructor
  · exact (claim_C5.1 (transaction_tree_init "0xa") "0xz" "0xb" "0x1").1.2
      (Or.inl (by decide))
  · exact (claim_C5.2 tree_ab reachable_tree_ab "0xq").2 (by decide)

/-- C6: on every reachable tree, `leaves` is exactly the set of observed
wallets that appear as the parent component of no `parent_info` entry. -/
theorem claim_C6 (t : transaction_tree) (hr : Reachable t) :
    ∀ w, w ∈ t.leaves ↔
      (w ∈ t.observed_wallets ∧ ∀ e ∈ t.parent_info, e.2.1 ≠ w) :=
  (reachable_inv hr).leaves_iff

/-- C6 witness: in the concrete two-wallet tree, the child is a leaf and the
root (now a parent) is not. -/
theorem claim_C6_witness : "0xb" ∈ tree_ab.leaves ∧ "0xa" ∉ tree_ab.leaves := by
  constructor
  · exact (claim_C6 tree_ab reachable_tree_ab "0xb").2 ⟨by decide, by decide⟩
  · intro hmem
    exact ((claim_C6 tree_ab reachable_tree_ab "0xa").1 hmem).2
      ("0xb", "0xa", "0x1") (by decide) rfl

/-- C7: on every reachable tree, the walk from any observed wallet reaches
the root, never revisits a wallet, and has length at most `|observed|` —
so `path_to_root` terminates and no wallet is its own ancestor. -/
theorem claim_C7 (t : transaction_tree) (hr : Reachable t) :
    ∀ w ∈ t.observed_wallets, ∃ ws txs,
      path_to_root t w = some (ws, txs) ∧ ws.Nodup ∧
      ws.length ≤ t.observed_wallets.length ∧
      ws.head? = some w ∧ ws.getLast? = some t.root_wallet := by
  intro w hw
  obtain ⟨ws, txs, hpath, hvp, hhd, hnd, hsub⟩ := reach_path hr w hw
  refine ⟨ws, txs, hpath, hnd, ?_, hhd, hvp.getLast_root⟩
  exact (hnd.subperm fun x hx => hsub x hx).length_le

/-- C7 witness: the walk from the concrete child wallet. -/
theorem claim_C7_witness :
    ∃ ws txs, path_to_root tree_ab "0xb" = some (ws, txs) ∧ ws.Nodup ∧
      ws.length ≤ tree_ab.observed_wallets.length ∧
      ws.head? = some "0xb" ∧ ws.getLast? = some tree_ab.root_wallet :=
  claim_C7 tree_ab reachable_tree_ab "0xb" (by decide)

/-- C10: a rejected `expand` (unobserved parent or already-observed child)
fails before mutating anything — the returned state keeps `observed_wallets`,
`parent_info` and `leaves` exactly as they were — and `path_to_root` on an
unobserved wallet fails (being read-only, it never mutates the tree in the
embedding). -/
theorem claim_C10 :
    (∀ (t : transaction_tree) (p c hsh : String),
      (p ∉ t.observed_wallets ∨ c ∈ t.observed_wallets) →
        (expandRun t p c hsh).1.isSome = true ∧
        (expandRun t p c hsh).2.observed_wallets = t.observed_wallets ∧
        (expandRun t p c hsh).2.parent_info = t.parent_info ∧
        (expandRun t p c hsh).2.leaves = t.leaves) ∧
    ∀ (t : transaction_tree) (w : String), w ∉ t.observed_wallets →
      path_to_root t w = none := by
  constructor
  · intro t p c hsh hviol
    have h2 : (expandRun t p c hsh).1.isSome = true ∧ (expandRun t p c hsh).2 = t := by
      unfold expandRun
      rcases hviol with hp | hc
      · rw [if_neg hp]; exact ⟨rfl, rfl⟩
      · by_cases hp2 : p ∈ t.observed_wallets
        · rw [if_pos hp2, if_pos hc]; exact ⟨rfl, rfl⟩
        · rw [if_neg hp2]; exact ⟨rfl, rfl⟩
    exact ⟨h2.1, by rw [h2.2], by rw [h2.2], by rw [h2.2]⟩
  · exact fun t w hw => path_to_root_none_of_not_obs hw

/-- C10 witness: a concrete rejected `expand` leaves the fresh tree intact,
and a concrete `path_to_root` on an unobserved wallet fails. -/
theorem claim_C10_witness :
    ((expandRun (transaction_tree_init "0xa") "0xz" "0xb" "0x1").1.isSome = true ∧
     (expandRun (transaction_tree_init "0xa") "0xz" "0xb" "0x1").2.observed_wallets =
       (transaction_tree_init "0xa").observed_wallets ∧
     (expandRun (transaction_tree_init "0xa") "0xz" "0xb" "0x1").2.parent_info =
       (transaction_tree_init "0xa").parent_info ∧
     (expandRun (transaction_tree_init "0xa") "0xz" "0xb" "0x1").2.leaves =
       (transaction_tree_init "0xa").leaves) ∧
    path_to_root (transaction_tree_init "0xa") "0xq" = none :=
  ⟨claim_C10.1 (transaction_tree_init "0xa") "0xz" "0xb" "0x1" (Or.inl (by decide)),
   claim_C10.2 (transaction_tree_init "0xa") "0xq" (by decide)⟩

/-! ### Stepping the inner transaction loop -/

/-- One iteration of the inner loop on a fresh, nonempty, non-target
neighbor below the depth bound: the neighbor is admitted and enqueued. -/
theorem process_txs_step_new {target_wallet : String} {max_depth : Nat}
    {wallet : String} {depth : Nat} {t t2 : transaction_tree}
    {queue : List (String × Nat)} {tx : Tx} {rest : List Tx} {n : String}
    (hn : str_lower (neighbor_address tx wallet) = n)
    (hcond : n ∉ t.observed_wallets ∧ n ≠ "")
    (hx : expand t wallet n tx.txhash = some t2)
    (hnt : n ≠ target_wallet) (hd : depth < max_depth) :
    process_txs target_wallet max_depth wallet depth t queue (tx :: rest) =
      process_txs target_wallet max_depth wallet depth t2
        (queue ++ [(n, depth + 1)]) rest := by
  simp only [process_txs]
  rw [hn, if_pos hcond]
  split
  · next heq => rw [hx] at heq; exact Option.noConfusion heq
  · next tree2 heq =>
    rw [hx] at heq
    cases heq
    rw [if_neg hnt, if_pos hd]

/-- One iteration of the inner loop on a non-target neighbor that is not
admitted (already observed, or the empty string): the tree is unchanged, yet
the neighbor is still enqueued whenever `depth < max_depth`. -/
theorem process_txs_step_old {target_wallet : String} {max_depth : Nat}
    {wallet : String} {depth : Nat} {t : transaction_tree}
    {queue : List (String × Nat)} {tx : Tx} {rest : List Tx} {n : String}
    (hn : str_lower (neighbor_address tx wallet) = n)
    (hcond : ¬(n ∉ t.observed_wallets ∧ n ≠ ""))
    (hnt : n ≠ target_wallet) :
    process_txs target_wallet max_depth wallet depth t queue (tx :: rest) =
      if depth < max_depth then
        process_txs target_wallet max_depth wallet depth t
          (queue ++ [(n, depth + 1)]) rest
      else process_txs target_wallet max_depth wallet depth t queue rest := by
  simp only [process_txs]
  rw [hn, if_neg hcond]
  split
  · next heq => exact Option.noConfusion heq
  · next tree2 heq =>
    cases heq
    rw [if_neg hnt]

/-! ### Concrete data sources for the spec scenarios -/

/-- Direct-edge scenario: `0xA` has one transaction `(A → B, "0x1")`. -/
def ds_direct : String → List Tx := fun w =>
  if w = "0xa" then [{ from_address := "0xA", to_address := "0xB", txhash := "0x1" }]
  else []

/-- Two-hop scenario: `0xA`'s transactions yield only `0xC` (hash `"0x2"`)
and `0xC`'s transactions yield `0xB` (hash `"0x3"`). -/
def ds_twohop : String → List Tx := fun w =>
  if w = "0xa" then [{ from_address := "0xA", to_address := "0xC", txhash := "0x2" }]
  else if w = "0xc" then [{ from_address := "0xC", to_address := "0xB", txhash := "0x3" }]
  else []

/-! ### Claims C1, C2, C3, C9 -/

/-- C1 counterexample: in the two-hop configuration with `maxDepth = 1` the
search does NOT return NotFound — it completes and returns
`Success([B, C, A], ["0x3", "0x2"])`, because the depth bound only guards
enqueueing, not the expansion of already-dequeued wallets. -/
theorem claim_C1_counterexample :
    (shortest_path ds_twohop "0xA" "0xB" 1 10).map Prod.fst =
      some (SPResult.success ["0xb", "0xc", "0xa"] ["0x3", "0x2"]) ∧
    (shortest_path ds_twohop "0xA" "0xB" 1 10).map Prod.fst ≠
      some SPResult.notFound := by
  decide

/-- C1 (amended): in the two-hop configuration, `maxDepth = 1` still finds
the target (wallets discovered at depth `maxDepth` are dequeued and their
transactions inspected), returning `Success([B, C, A], ["0x3", "0x2"])`;
the depth-exhaustion outcome `NotFound` requires `maxDepth = 0`. -/
theorem claim_C1 :
    (shortest_path ds_twohop "0xA" "0xB" 1 10).map Prod.fst =
      some (SPResult.success ["0xb", "0xc", "0xa"] ["0x3", "0x2"]) ∧
    (shortest_path ds_twohop "0xA" "0xB" 0 10).map Prod.fst =
      some SPResult.notFound := by
  decide

/-- C2 counterexample: a batch with two transactions pointing at the same
fresh neighbor admits it once but enqueues `(neighbor, depth+1)` TWICE —
the observed-set check guards only the admission, not the enqueue. -/
theorem claim_C2_counterexample :
    process_txs "0xz" 1 "0xa" 0 (transaction_tree_init "0xa") []
        [{ from_address := "0xa", to_address := "0xb", txhash := "0x1" },
         { from_address := "0xa", to_address := "0xb", txhash := "0x2" }] =
      BatchStep.more
        { root_wallet := "0xa"
          parent_info := [("0xb", "0xa", "0x1")]
          observed_wallets := ["0xb", "0xa"]
          leaves := ["0xb"] }
        [("0xb", 1), ("0xb", 1)] := by
  decide

/-- C2 (amended): when a dequeued wallet's batch holds two transactions both
pointing to the same new neighbor (nonempty, not the target, below the depth
bound), the second occurrence is skipped only for admission: exactly one
`expand` of that neighbor happens (one `parent_info` entry, keyed by the
first transaction), but `(neighbor, depth+1)` is enqueued once per
occurrence — twice, not once. -/
theorem claim_C2 (t : transaction_tree) (queue : List (String × Nat))
    (target_wallet : String) (max_depth : Nat) (wallet : String) (depth : Nat)
    (tx1 tx2 : Tx) (n : String)
    (hr : Reachable t) (hwobs : wallet ∈ t.observed_wallets)
    (h1 : str_lower (neighbor_address tx1 wallet) = n)
    (h2 : str_lower (neighbor_address tx2 wallet) = n)
    (hnobs : n ∉ t.observed_wallets) (hne : n ≠ "") (hnt : n ≠ target_wallet)
    (hd : depth < max_depth) :
    ∃ t2, process_txs target_wallet max_depth wallet depth t queue [tx1, tx2] =
        BatchStep.more t2 (queue ++ [(n, depth + 1), (n, depth + 1)]) ∧
      lookupParent t2.parent_info n = some (wallet, tx1.txhash) ∧
      (t2.parent_info.filter (fun e => e.1 == n)).length = 1 ∧
      n ∈ t2.observed_wallets := by
  have hI := reachable_inv hr
  refine ⟨{ root_wallet := t.root_wallet
            parent_info := (n, wallet, tx1.txhash) :: t.parent_info
            observed_wallets := n :: t.observed_wallets
            leaves := List.insert n (t.leaves.filter (fun w => w != wallet)) },
    ?_, ?_, ?_, ?_⟩
  · rw [process_txs_step_new h1 ⟨hnobs, hne⟩ (expand_success hwobs hnobs) hnt hd]
    rw [process_txs_step_old h2
      (fun hcon => hcon.1 (List.mem_cons_self _ _)) hnt]
    rw [if_pos hd]
    simp [process_txs]
  · exact lookupParent_cons_self _ _ _ _
  · show (((n, wallet, tx1.txhash) :: t.parent_info).filter
      (fun e => e.1 == n)).length = 1
    rw [List.filter_cons_of_pos (by simp)]
    have htail : t.parent_info.filter (fun e => e.1 == n) = [] := by
      rw [List.filter_eq_nil_iff]
      intro e he
      simp only [beq_iff_eq]
      exact fun hq => hnobs (hq ▸ hI.keys_obs e he)
    rw [htail]
    rfl
  · exact List.mem_cons_self _ _

/-- C2 witness: the amended statement at the concrete duplicate batch. -/
theorem claim_C2_witness :
    ∃ t2, process_txs "0xz" 1 "0xa" 0 (transaction_tree_init "0xa") []
        [{ from_address := "0xa", to_address := "0xb", txhash := "0x1" },
         { from_address := "0xa", to_address := "0xb", txhash := "0x2" }] =
        BatchStep.more t2 ([] ++ [("0xb", 0 + 1), ("0xb", 0 + 1)]) ∧
      lookupParent t2.parent_info "0xb" =
        some ("0xa", Tx.txhash { from_address := "0xa", to_address := "0xb", txhash := "0x1" }) ∧
      (t2.parent_info.filter (fun e => e.1 == "0xb")).length = 1 ∧
      "0xb" ∈ t2.observed_wallets :=
  claim_C2 (transaction_tree_init "0xa") [] "0xz" 1 "0xa" 0
    { from_address := "0xa", to_address := "0xb", txhash := "0x1" }
    { from_address := "0xa", to_address := "0xb", txhash := "0x2" }
    "0xb" (Reachable.init "0xa") (by decide) (by decide) (by decide)
    (by decide) (by decide) (by decide) (by decide)

/-- C3 counterexample: a transaction whose canonicalized neighbor is the
empty string is not skipped entirely — the tree is unchanged (no Admit), but
`("", depth+1)` is still enqueued. -/
theorem claim_C3_counterexample :
    process_txs "0xb" 1 "0xa" 0 (transaction_tree_init "0xa") []
        [{ from_address := "0xa", to_address := "", txhash := "0x9" }] =
      BatchStep.more (transaction_tree_init "0xa") [("", 1)] := by
  decide

/-- C3 (amended): a transaction whose canonicalized neighbor is the empty
string is skipped for admission only — the tree is left unchanged, no Admit
occurs — but the transaction is not skipped entirely: the neighbor is still
compared against the (nonempty) target, and `("", depth+1)` is enqueued
whenever `depth < max_depth`. -/
theorem claim_C3 (t : transaction_tree) (queue : List (String × Nat))
    (target_wallet : String) (max_depth : Nat) (wallet : String) (depth : Nat)
    (tx : Tx) (rest : List Tx)
    (hn : str_lower (neighbor_address tx wallet) = "")
    (ht : target_wallet ≠ "") :
    process_txs target_wallet max_depth wallet depth t queue (tx :: rest) =
      if depth < max_depth then
        process_txs target_wallet max_depth wallet depth t
          (queue ++ [("", depth + 1)]) rest
      else process_txs target_wallet max_depth wallet depth t queue rest :=
  process_txs_step_old hn (by simp) (Ne.symm ht)

/-- C3 witness: the amended statement at a concrete empty-neighbor
transaction. -/
theorem claim_C3_witness :
    process_txs "0xb" 1 "0xa" 0 (transaction_tree_init "0xa") []
        [{ from_address := "0xa", to_address := "", txhash := "0x9" }] =
      if 0 < 1 then
        process_txs "0xb" 1 "0xa" 0 (transaction_tree_init "0xa")
          ([] ++ [("", 0 + 1)]) []
      else process_txs "0xb" 1 "0xa" 0 (transaction_tree_init "0xa") [] [] :=
  claim_C3 (transaction_tree_init "0xa") [] "0xb" 1 "0xa" 0
    { from_address := "0xa", to_address := "", txhash := "0x9" } []
    (by decide) (by decide)

/-- C9: with the direct-edge data source, any `maxDepth ≥ 1` (and any
positive loop fuel) returns `Success(["0xb", "0xa"], ["0x1"])`. -/
theorem claim_C9 (max_depth fuel : Nat) (_hmd : 1 ≤ max_depth) (hf : 1 ≤ fuel) :
    (shortest_path ds_direct "0xA" "0xB" max_depth fuel).map Prod.fst =
      some (SPResult.success ["0xb", "0xa"] ["0x1"]) := by
  cases fuel with
  | zero => exact absurd hf (by decide)
  | succ fuel => rfl

/-- C9 witness: the direct-edge scenario at `maxDepth = 1`. -/
theorem claim_C9_witness :
    (shortest_path ds_direct "0xA" "0xB" 1 5).map Prod.fst =
      some (SPResult.success ["0xb", "0xa"] ["0x1"]) :=
  claim_C9 1 5 (by decide) (by decide)

/-! ### Depth bound on admitted wallets (claim C8) -/

/-- `hopOk t w n`: the walk of `w` succeeds and has at most `n` hops
(at most `n + 1` wallets). -/
def hopOk (t : transaction_tree) (w : String) (n : Nat) : Prop :=
  ∃ ws txs, path_to_root t w = some (ws, txs) ∧ ws.length ≤ n + 1

theorem hopOk_mono {t : transaction_tree} {w : String} {n m : Nat}
    (hnm : n ≤ m) : hopOk t w n → hopOk t w m :=
  fun ⟨ws, txs, hp, hl⟩ => ⟨ws, txs, hp, hl.trans (Nat.succ_le_succ hnm)⟩

theorem hopOk_expand_old {s t2 : transaction_tree} {p c hsh w : String} {n : Nat}
    (hI : TreeInv s) (hx : expand s p c hsh = some t2)
    (hw : w ∈ s.observed_wallets) : hopOk s w n → hopOk t2 w n :=
  fun ⟨ws, txs, hp, hl⟩ => ⟨ws, txs, path_to_root_expand_old hI hx hw hp, hl⟩

theorem hopOk_expand_new {s t2 : transaction_tree} {p c hsh : String} {n : Nat}
    (hI : TreeInv s) (hx : expand s p c hsh = some t2)
    (hpn : hopOk s p n) : hopOk t2 c (n + 1) := by
  obtain ⟨ws, txs, hp, hl⟩ := hpn
  exact ⟨c :: ws, hsh :: txs, path_to_root_expand_new hI hx hp,
    by simpa using Nat.succ_le_succ hl⟩

/-- Invariant of the inner transaction loop while the entry
`(wallet, depth)` is being processed. -/
structure InnerInv (max_depth : Nat) (wallet : String) (depth : Nat)
    (t : transaction_tree) (queue : List (String × Nat)) : Prop where
  reach : Reachable t
  qsorted : List.Pairwise (fun a b => a.2 ≤ b.2) queue
  qbound : ∀ e ∈ queue, depth ≤ e.2 ∧ e.2 ≤ depth + 1 ∧ e.2 ≤ max_depth
  qobs : ∀ e ∈ queue, e.1 ∈ t.observed_wallets ∨ e.1 = ""
  qhop : ∀ e ∈ queue, e.1 ∈ t.observed_wallets → hopOk t e.1 e.2
  obs_hop : ∀ w ∈ t.observed_wallets, hopOk t w (depth + 1)
  wallet_hop : wallet ∈ t.observed_wallets → hopOk t wallet depth

/-- What holds of the inner loop's outcome: a completed pass keeps the
invariant; an early return or crash leaves a reachable tree whose observed
wallets are all within `max_depth + 1` hops. -/
def StepOk (max_depth : Nat) (wallet : String) (depth : Nat) : BatchStep → Prop
  | BatchStep.more t2 q2 => InnerInv max_depth wallet depth t2 q2
  | BatchStep.done _ t2 =>
      Reachable t2 ∧ ∀ w ∈ t2.observed_wallets, hopOk t2 w (max_depth + 1)

theorem process_txs_inv {target_wallet : String} {max_depth : Nat}
    {wallet : String} {depth : Nat} (hdm : depth ≤ max_depth) :
    ∀ (batch : List Tx) (t : transaction_tree) (queue : List (String × Nat)),
      InnerInv max_depth wallet depth t queue →
      StepOk max_depth wallet depth
        (process_txs target_wallet max_depth wallet depth t queue batch) := by
  intro batch
  induction batch with
  | nil => intro t queue hInv; exact hInv
  | cons tx rest ih =>
    intro t queue hInv
    simp only [process_txs]
    set n := str_lower (neighbor_address tx wallet)
    split
    · exact ⟨hInv.reach,
        fun w hw => hopOk_mono (Nat.succ_le_succ hdm) (hInv.obs_hop w hw)⟩
    · next tree2 heq =>
      have hbundle :
          Reachable tree2 ∧
          (∀ w m, w ∈ t.observed_wallets → hopOk t w m → hopOk tree2 w m) ∧
          (∀ w ∈ tree2.observed_wallets, hopOk tree2 w (depth + 1)) ∧
          (∀ w ∈ t.observed_wallets, w ∈ tree2.observed_wallets) ∧
          (∀ w ∈ tree2.observed_wallets, w ∈ t.observed_wallets ∨
            (w = n ∧ n ∉ t.observed_wallets ∧ n ≠ "" ∧
              wallet ∈ t.observed_wallets)) ∧
          (n ∈ tree2.observed_wallets ∨ n = "") := by
        by_cases hcond : n ∉ t.observed_wallets ∧ n ≠ ""
        · rw [if_pos hcond] at heq
          have hI := reachable_inv hInv.reach
          obtain ⟨hwobs, hnobs, hroot2, hinfo2, hobs2, _⟩ := expand_some_elim heq
          refine ⟨Reachable.step _ _ _ _ _ hInv.reach heq,
            fun w m hw hh => hopOk_expand_old hI heq hw hh, ?_, ?_, ?_, ?_⟩
          · intro w hw
            rw [hobs2] at hw
            rcases List.mem_cons.1 hw with rfl | hw2
            · exact hopOk_expand_new hI heq (hInv.wallet_hop hwobs)
            · exact hopOk_expand_old hI heq hw2 (hInv.obs_hop w hw2)
          · intro w hw
            rw [hobs2]
            exact List.mem_cons_of_mem _ hw
          · intro w hw
            rw [hobs2] at hw
            rcases List.mem_cons.1 hw with rfl | hw2
            · exact Or.inr ⟨rfl, hcond.1, hcond.2, hwobs⟩
            · exact Or.inl hw2
          · left
            rw [hobs2]
            exact List.mem_cons_self _ _
        · rw [if_neg hcond] at heq
          cases heq
          refine ⟨hInv.reach, fun w m hw hh => hh, hInv.obs_hop,
            fun w hw => hw, fun w hw => Or.inl hw, ?_⟩
          by_cases hmem : n ∈ t.observed_wallets
          · exact Or.inl hmem
          · right
            by_contra hne3
            exact hcond ⟨hmem, hne3⟩
      obtain ⟨hreach2, htrans, hobs2hop, hsub, hback, hnstat⟩ := hbundle
      split
      · split
        · exact ⟨hreach2,
            fun w hw => hopOk_mono (Nat.succ_le_succ hdm) (hobs2hop w hw)⟩
        · exact ⟨hreach2,
            fun w hw => hopOk_mono (Nat.succ_le_succ hdm) (hobs2hop w hw)⟩
      · next hnt =>
        split
        · next hdlt =>
          apply ih
          constructor
          · exact hreach2
          · rw [List.pairwise_append]
            refine ⟨hInv.qsorted, List.pairwise_singleton _ _, ?_⟩
            intro a ha b hb
            rcases List.mem_singleton.1 hb with rfl
            exact (hInv.qbound a ha).2.1
          · intro e he
            rcases List.mem_append.1 he with he2 | he2
            · exact hInv.qbound e he2
            · rcases List.mem_singleton.1 he2 with rfl
              exact ⟨Nat.le_succ _, Nat.le_refl _, hdlt⟩
          · intro e he
            rcases List.mem_append.1 he with he2 | he2
            · rcases hInv.qobs e he2 with ho | ho
              · exact Or.inl (hsub _ ho)
              · exact Or.inr ho
            · rcases List.mem_singleton.1 he2 with rfl
              exact hnstat
          · intro e he hw
            rcases List.mem_append.1 he with he2 | he2
            · rcases hback e.1 hw with hw2 | ⟨heq1, hn2, hne2, _⟩
              · exact htrans _ _ hw2 (hInv.qhop e he2 hw2)
              · rcases hInv.qobs e he2 with ho | ho
                · exact absurd (heq1 ▸ ho) hn2
                · exact absurd (heq1 ▸ ho) hne2
            · rcases List.mem_singleton.1 he2 with rfl
              exact hobs2hop _ hw
          · exact hobs2hop
          · intro hw
            rcases hback wallet hw with hw2 | ⟨_, _, _, hw2⟩ <;>
              exact htrans _ _ hw2 (hInv.wallet_hop hw2)
        · apply ih
          constructor
          · exact hreach2
          · exact hInv.qsorted
          · exact hInv.qbound
          · intro e he
            rcases hInv.qobs e he with ho | ho
            · exact Or.inl (hsub _ ho)
            · exact Or.inr ho
          · intro e he hw
            rcases hback e.1 hw with hw2 | ⟨heq1, hn2, hne2, _⟩
            · exact htrans _ _ hw2 (hInv.qhop e he hw2)
            · rcases hInv.qobs e he with ho | ho
              · exact absurd (heq1 ▸ ho) hn2
              · exact absurd (heq1 ▸ ho) hne2
          · exact hobs2hop
          · intro hw
            rcases hback wallet hw with hw2 | ⟨_, _, _, hw2⟩ <;>
              exact htrans _ _ hw2 (hInv.wallet_hop hw2)

/-- Invariant of the outer search loop between dequeues; `dcur` is the depth
of the last dequeued entry (0 initially). -/
structure LoopInv (max_depth dcur : Nat) (t : transaction_tree)
    (queue : List (String × Nat)) : Prop where
  reach : Reachable t
  dle : dcur ≤ max_depth
  qsorted : List.Pairwise (fun a b => a.2 ≤ b.2) queue
  qbound : ∀ e ∈ queue, dcur ≤ e.2 ∧ e.2 ≤ dcur + 1 ∧ e.2 ≤ max_depth
  qobs : ∀ e ∈ queue, e.1 ∈ t.observed_wallets ∨ e.1 = ""
  qhop : ∀ e ∈ queue, e.1 ∈ t.observed_wallets → hopOk t e.1 e.2
  obs_hop : ∀ w ∈ t.observed_wallets, hopOk t w (dcur + 1)

theorem sp_loop_inv {ds : String → List Tx} {target_wallet : String}
    {max_depth : Nat} :
    ∀ (fuel : Nat) (t : transaction_tree) (queue : List (String × Nat))
      (dcur : Nat) (r : SPResult) (tfin : transaction_tree),
      LoopInv max_depth dcur t queue →
      sp_loop ds target_wallet max_depth fuel t queue = some (r, tfin) →
      ∀ w ∈ tfin.observed_wallets, hopOk tfin w (max_depth + 1) := by
  intro fuel
  induction fuel with
  | zero => intro t queue dcur r tfin _ heq; exact Option.noConfusion heq
  | succ fuel ih =>
    intro t queue dcur r tfin hInv heq
    cases queue with
    | nil =>
      simp only [sp_loop, Option.some.injEq, Prod.mk.injEq] at heq
      obtain ⟨hreq, hteq⟩ := heq
      subst hteq
      exact fun w hw =>
        hopOk_mono (Nat.succ_le_succ hInv.dle) (hInv.obs_hop w hw)
    | cons head rest =>
      obtain ⟨wallet, depth⟩ := head
      simp only [sp_loop] at heq
      have hhead := hInv.qbound (wallet, depth) (List.mem_cons_self _ _)
      have hdm : depth ≤ max_depth := hhead.2.2
      have hInner : InnerInv max_depth wallet depth t rest := by
        have hpc := List.pairwise_cons.1 hInv.qsorted
        constructor
        · exact hInv.reach
        · exact hpc.2
        · intro e he
          refine ⟨hpc.1 e he, ?_, (hInv.qbound e (List.mem_cons_of_mem _ he)).2.2⟩
          exact ((hInv.qbound e (List.mem_cons_of_mem _ he)).2.1).trans
            (Nat.succ_le_succ hhead.1)
        · exact fun e he => hInv.qobs e (List.mem_cons_of_mem _ he)
        · exact fun e he => hInv.qhop e (List.mem_cons_of_mem _ he)
        · exact fun w hw => hopOk_mono (Nat.succ_le_succ hhead.1) (hInv.obs_hop w hw)
        · exact hInv.qhop (wallet, depth) (List.mem_cons_self _ _)
      have hstep :=
        @process_txs_inv target_wallet max_depth wallet depth hdm
          (ds wallet) t rest hInner
      cases hpt : process_txs target_wallet max_depth wallet depth t rest (ds wallet) with
      | done r2 t2 =>
        rw [hpt] at heq hstep
        have heq2 : some (r2, t2) = some (r, tfin) := heq
        have hdone : Reachable t2 ∧
            ∀ w ∈ t2.observed_wallets, hopOk t2 w (max_depth + 1) := hstep
        simp only [Option.some.injEq, Prod.mk.injEq] at heq2
        obtain ⟨hreq, hteq⟩ := heq2
        subst hteq
        exact hdone.2
      | more t2 q2 =>
        rw [hpt] at heq hstep
        have heq2 : sp_loop ds target_wallet max_depth fuel t2 q2 =
            some (r, tfin) := heq
        have hmore : InnerInv max_depth wallet depth t2 q2 := hstep
        refine ih t2 q2 depth r tfin ?_ heq2
        constructor
        · exact hmore.reach
        · exact hdm
        · exact hmore.qsorted
        · exact hmore.qbound
        · exact hmore.qobs
        · exact hmore.qhop
        · exact hmore.obs_hop

/-- C8: after any completed run of `shortest_path` with depth bound
`max_depth`, every wallet in the final tree (everything admitted during the
run, plus the source) has a path to the root of at most `max_depth + 1`
hops: `len(wallets) - 1 ≤ max_depth + 1`. -/
theorem claim_C8 (ds : String → List Tx) (source_wallet target_wallet : String)
    (max_depth fuel : Nat) (r : SPResult) (tfin : transaction_tree)
    (hrun : shortest_path ds source_wallet target_wallet max_depth fuel =
      some (r, tfin)) :
    ∀ w ∈ tfin.observed_wallets, ∃ ws txs,
      path_to_root tfin w = some (ws, txs) ∧ ws.length - 1 ≤ max_depth + 1 := by
  have hInit : LoopInv max_depth 0
      (transaction_tree_init (str_lower source_wallet))
      [(str_lower source_wallet, 0)] := by
    have hsrc : hopOk (transaction_tree_init (str_lower source_wallet))
        (str_lower source_wallet) 0 := by
      refine ⟨[str_lower source_wallet], [], ?_, Nat.le_refl _⟩
      exact path_fuel_succ_root (by simp [transaction_tree_init]) rfl
    constructor
    · exact Reachable.init _
    · exact Nat.zero_le _
    · exact List.pairwise_singleton _ _
    · intro e he
      rcases List.mem_singleton.1 he with rfl
      exact ⟨Nat.le_refl _, Nat.zero_le _, Nat.zero_le _⟩
    · intro e he
      rcases List.mem_singleton.1 he with rfl
      exact Or.inl (by simp [transaction_tree_init])
    · intro e he
      rcases List.mem_singleton.1 he with rfl
      exact fun _ => hsrc
    · intro w hw
      have hw2 : w = str_lower source_wallet := by
        simpa [transaction_tree_init] using hw
      subst hw2
      exact hopOk_mono (Nat.zero_le _) hsrc
  intro w hw
  obtain ⟨ws, txs, hp, hl⟩ := sp_loop_inv fuel _ _ 0 r tfin hInit hrun w hw
  exact ⟨ws, txs, hp, by omega⟩

/-- C8 witness: the direct-edge run with `max_depth = 1` ends in the
concrete two-wallet tree, whose non-root wallet is one hop from the root. -/
theorem claim_C8_witness :
    ∃ ws txs, path_to_root tree_ab "0xb" = some (ws, txs) ∧
      ws.length - 1 ≤ 1 + 1 :=
  claim_C8 ds_direct "0xA" "0xB" 1 5
    (SPResult.success ["0xb", "0xa"] ["0x1"]) tree_ab (by decide) "0xb" (by decide)
